import Mathlib

/-!
Shallow embedding of `src/river_crossing.py` (a river-crossing puzzle game
with a depth-first-search solver), together with proofs checking the
natural-language specification against the code.

Modelling conventions:
* Python `Bank` enum becomes the inductive `Bank`.
* A Python `Dict[str, Bank]` becomes an association list `Positions`
  (`List (String × Bank)`); Python dictionaries preserve insertion order and
  this order is observable in the code (list comprehensions over
  `positions.items()`), so an ordered association list is the faithful model.
  Assignment to an existing key updates in place; assignment to a fresh key
  appends — `updatePos` mirrors both.
* `positions['Farmer']` raises `KeyError` when the key is absent; the model
  totalises this lookup with `farmerBank` (defaulting to `LEFT`), and every
  theorem that depends on the farmer's bank carries the hypothesis that
  `"Farmer"` is among the keys, so the default is never exercised.
* `print` calls are side effects invisible to the returned values and are
  dropped.
* The `frozenset` state key of the search is an unordered set of
  (item, bank) pairs; it is modelled as a `Multiset Move` via `stateKey`.
* Python recursion has no fuel; the Lean search `dfsAux` takes explicit fuel
  and returns `none` on exhaustion, `some (result, visited)` otherwise.
  `dfs` runs it with fuel `allKeys.length + 1`, and `dfsAux_total` proves
  that this fuel can never be exhausted on the canonical key set, so `dfs`
  agrees with the unbounded Python recursion there.
* `RiverCrossingGame._cached_solutions` holds a Python *set* of moves
  (`set(solution)`); it is modelled as an `Option (List Move)` storing the
  distinct moves (`List.dedup`).  A Python set enumerates in an unspecified
  order, so positive theorems about a cached result only use
  order-independent facts (its length, i.e. the number of distinct moves).
  A refutation may additionally exhibit the model's fixed enumeration
  order: it is one order the unordered set may realise, and a property
  required to hold for every enumeration order fails as soon as it fails
  for one.
-/

namespace RiverCrossing

/-- The `Bank` enum of the source: `LEFT` and `RIGHT`. -/
inductive Bank where
  | LEFT
  | RIGHT
deriving DecidableEq, Repr

/-- `Bank.opposite`: `RIGHT if self == LEFT else LEFT`. -/
def Bank.opposite : Bank → Bank
  | Bank.LEFT => Bank.RIGHT
  | Bank.RIGHT => Bank.LEFT

/-- A recorded move `(item, bank)` as appended to `history`. -/
abbrev Move := String × Bank

/-- The `positions` dictionary: an insertion-ordered association list. -/
abbrev Positions := List Move

/-- Dictionary lookup `positions[k]`, returning `none` where Python would
raise `KeyError`. -/
def lookupBank : Positions → String → Option Bank
  | [], _ => none
  | (k', v) :: rest, k => if k' = k then some v else lookupBank rest k

/-- The key set of the dictionary, in insertion order. -/
def keysOf (ps : Positions) : List String := ps.map Prod.fst

/-- Dictionary assignment `positions[k] = v`: updates an existing key in
place, appends a fresh key at the end (Python dict semantics). -/
def updatePos : Positions → String → Bank → Positions
  | [], k, v => [(k, v)]
  | (k', v') :: rest, k, v =>
      if k' = k then (k, v) :: rest else (k', v') :: updatePos rest k v

/-- `positions['Farmer']`, totalised (see module comment). -/
def farmerBank (ps : Positions) : Bank := (lookupBank ps "Farmer").getD Bank.LEFT

/-- `RiverCrossingGame.get_items_at_bank`: all items whose position equals
`bank`, in dictionary order. -/
def getItemsAtBank (ps : Positions) (bank : Bank) : List String :=
  (ps.filter fun p => p.2 = bank).map Prod.fst

/-- `RiverCrossingGame.is_valid_state` (the live-play validity check): looks
at all items on the bank opposite the farmer and rejects the two dangerous
combinations.  The `print` calls of the source are dropped. -/
def is_valid_state (ps : Positions) : Bool :=
  let fb := farmerBank ps
  let items := getItemsAtBank ps fb.opposite
  if "Fox" ∈ items ∧ "Chicken" ∈ items then false
  else if "Chicken" ∈ items ∧ "Grain" ∈ items then false
  else true

/-- `RiverCrossingGame._is_valid_state` (the static helper used by the
search): same checks, but the item list explicitly excludes `'Farmer'`. -/
def is_valid_state_s (ps : Positions) : Bool :=
  let fb := farmerBank ps
  let items := (ps.filter fun p => p.2 = fb.opposite ∧ p.1 ≠ "Farmer").map Prod.fst
  if "Fox" ∈ items ∧ "Chicken" ∈ items then false
  else if "Chicken" ∈ items ∧ "Grain" ∈ items then false
  else true

/-- `RiverCrossingGame.is_won` / the goal test of `dfs`:
`all(pos == Bank.RIGHT for pos in positions.values())`. -/
def isGoalPos (ps : Positions) : Bool :=
  ps.all fun p => decide (p.2 = Bank.RIGHT)

/-- The `GameState` dataclass: positions plus move history.  `GameState.copy`
is the identity in a pure model (its shallow copies exist only to confine
mutation, which the embedding has none of). -/
structure GameState where
  positions : Positions
  history : List Move
deriving DecidableEq, Repr

/-- The `frozenset((item, pos) for item, pos in state.positions.items())`
visited-set key: an order-independent set of pairs. -/
def stateKey (ps : Positions) : Multiset Move := (ps : Multiset Move)

/-- `items_with_farmer` of `dfs`: the non-farmer items on the farmer's bank,
in dictionary order. -/
def itemsWithFarmer (ps : Positions) (fb : Bank) : List String :=
  (ps.filter fun p => p.2 = fb ∧ p.1 ≠ "Farmer").map Prod.fst

/-- The successor state built inside `dfs` for one candidate move:
`none` is the farmer crossing alone, `some item` carries `item` across.
The recorded history entry is `(name, fb.opposite)` exactly as the source
appends it. -/
def nextState (s : GameState) (fb : Bank) : Option String → GameState
  | none =>
      { positions := updatePos s.positions "Farmer" fb.opposite
        history := s.history ++ [("Farmer", fb.opposite)] }
  | some item =>
      { positions := updatePos (updatePos s.positions "Farmer" fb.opposite) item fb.opposite
        history := s.history ++ [(item, fb.opposite)] }

/-- The candidate loop of `dfs`: try each candidate move in order; recurse
(via `rec`, the search at one fuel less) when the successor is valid; return
the first truthy result (`if result:` — a `None` or empty result makes the
loop continue).  The visited set is threaded, modelling Python's in-place
mutation of the shared `visited` set. -/
def tryMoves (rec : GameState → List (Multiset Move) → Option (Option (List Move) × List (Multiset Move))) :
    GameState → Bank → List (Option String) → List (Multiset Move) →
    Option (Option (List Move) × List (Multiset Move))
  | _, _, [], visited => some (none, visited)
  | s, fb, c :: cs, visited =>
      if is_valid_state_s (nextState s fb c).positions = true then
        match rec (nextState s fb c) visited with
        | none => none
        | some (some sol, v') =>
            if sol.isEmpty then tryMoves rec s fb cs v' else some (some sol, v')
        | some (none, v') => tryMoves rec s fb cs v'
      else tryMoves rec s fb cs visited

/-- The recursive `dfs` of `RiverCrossingGame.solve`, with explicit fuel.
Outer `none` means fuel ran out (impossible with enough fuel, see
`dfsAux_total`); `some (r, v')` is the Python result `r` together with the
final contents `v'` of the mutated `visited` set. -/
def dfsAux : Nat → GameState → List (Multiset Move) →
    Option (Option (List Move) × List (Multiset Move))
  | 0, _, _ => none
  | fuel + 1, s, visited =>
      if isGoalPos s.positions = true then some (some s.history, visited)
      else if stateKey s.positions ∈ visited then some (none, visited)
      else
        tryMoves (dfsAux fuel) s (farmerBank s.positions)
          (none :: (itemsWithFarmer s.positions (farmerBank s.positions)).map some)
          (stateKey s.positions :: visited)

/-- The canonical key set of `RiverCrossingGame.__init__`, in insertion
order. -/
def canonKeys : List String := ["Farmer", "Fox", "Chicken", "Grain"]

/-- The two banks, used to enumerate the finite state space. -/
def banks : List Bank := [Bank.LEFT, Bank.RIGHT]

/-- Every possible visited-set key over the canonical four entities:
`2 ^ 4 = 16` keys. -/
def allKeys : List (Multiset Move) :=
  banks.flatMap fun a => banks.flatMap fun b => banks.flatMap fun c => banks.map fun d =>
    stateKey [("Farmer", a), ("Fox", b), ("Chicken", c), ("Grain", d)]

/-- How many canonical keys a visited set has not yet swallowed — the
termination measure of the search. -/
def remaining (visited : List (Multiset Move)) : Nat :=
  (allKeys.filter fun k => decide (k ∉ visited)).length

/-- `dfs(self.state, set())` as called by `solve`, with fuel one more than
the number of canonical keys (`dfsAux_total` shows this fuel is never
exhausted on canonical states). -/
def dfs (s : GameState) (visited : List (Multiset Move)) :
    Option (Option (List Move) × List (Multiset Move)) :=
  dfsAux (allKeys.length + 1) s visited

/-- The `RiverCrossingGame` object: live state, move counter, and the
`_cached_solutions` field (a Python set of moves, stored as its list of
distinct elements; see module comment). -/
structure Game where
  state : GameState
  move_count : Nat
  cache : Option (List Move)
deriving DecidableEq, Repr

/-- `RiverCrossingGame.__init__`: everyone on the left bank, empty history,
zero moves, no cached solution. -/
def newGame : Game :=
  { state :=
      { positions :=
          [("Farmer", Bank.LEFT), ("Fox", Bank.LEFT),
           ("Chicken", Bank.LEFT), ("Grain", Bank.LEFT)]
        history := [] }
    move_count := 0
    cache := none }

/-- Python truthiness of the `item` argument of `make_move`: `None` and the
empty string are falsy, every other string is truthy. -/
def truthy : Option String → Bool
  | none => false
  | some s => !(s == "")

/-- `RiverCrossingGame.make_move`: validate, then move the farmer (and the
item, when truthy), append to history, bump the move counter.  Returns the
Python `bool` together with the updated game; a failed move returns the game
unchanged. -/
def makeMove (g : Game) (item : Option String) : Bool × Game :=
  if truthy item = true ∧ item.getD "" ∉ keysOf g.state.positions then (false, g)
  else
    let current := farmerBank g.state.positions
    if truthy item = true ∧ lookupBank g.state.positions (item.getD "") ≠ some current then
      (false, g)
    else
      let nb := current.opposite
      let ps1 := updatePos g.state.positions "Farmer" nb
      if truthy item = true then
        (true,
          { g with
            state :=
              { positions := updatePos ps1 (item.getD "") nb
                history := g.state.history ++ [(item.getD "", nb)] }
            move_count := g.move_count + 1 })
      else
        (true,
          { g with
            state :=
              { positions := ps1
                history := g.state.history ++ [("Farmer", nb)] }
            move_count := g.move_count + 1 })

/-- Python truthiness of `self._cached_solutions`: `None` and the empty set
are falsy. -/
def cacheTruthy : Option (List Move) → Bool
  | none => false
  | some l => !l.isEmpty

/-- `RiverCrossingGame.solve`: return the cached move set when truthy,
otherwise run `dfs` from the live state with a fresh visited set, caching a
truthy solution as `set(solution)`.  The first component is `none` only when
the fuelled search gave out (impossible on canonical states); otherwise it is
`some result` with `result` the Python return value. -/
def solve (g : Game) : Option (Option (List Move)) × Game :=
  if cacheTruthy g.cache = true then (some (some (g.cache.getD [])), g)
  else
    match dfs g.state [] with
    | none => (none, g)
    | some (r, _) =>
        match r with
        | some sol =>
            if sol.isEmpty then (some (some sol), g)
            else (some (some sol), { g with cache := some sol.dedup })
        | none => (some none, g)

/-- Replaying one recorded move `(name, bank)` on a positions dictionary:
the farmer moves to `bank` and the named item is set to `bank` (for the
farmer-alone record `("Farmer", bank)` the two writes coincide). -/
def replayMove (ps : Positions) (m : Move) : Positions :=
  updatePos (updatePos ps "Farmer" m.2) m.1 m.2

/-- Replaying a whole recorded move sequence. -/
def applySeq (ps : Positions) (ms : List Move) : Positions :=
  ms.foldl replayMove ps

/-- Every configuration reached while replaying `ms` from `ps` passes the
search validity check `_is_valid_state`. -/
def validReplay : Positions → List Move → Bool
  | _, [] => true
  | ps, m :: rest =>
      let ps' := replayMove ps m
      is_valid_state_s ps' && validReplay ps' rest

end RiverCrossing

namespace RiverCrossing

/-! ### Basic dictionary lemmas -/

theorem updatePos_idem (ps : Positions) (k : String) (v : Bank) :
    updatePos (updatePos ps k v) k v = updatePos ps k v := by
  induction ps with
  | nil => simp [updatePos]
  | cons p t ih =>
      obtain ⟨k', v'⟩ := p
      by_cases h : k' = k
      · simp [updatePos, h]
      · simp [updatePos, h, ih]

theorem lookup_of_mem {ps : Positions} {k : String} (h : k ∈ keysOf ps) :
    ∃ b, lookupBank ps k = some b := by
  induction ps with
  | nil => simp [keysOf] at h
  | cons p t ih =>
      obtain ⟨k', v'⟩ := p
      by_cases hk : k' = k
      · exact ⟨v', by simp [lookupBank, hk]⟩
      · have : k ∈ keysOf t := by
          simp [keysOf] at h
          rcases h with h | h
          · exact absurd h.symm hk
          · simpa [keysOf] using h
        obtain ⟨b, hb⟩ := ih this
        exact ⟨b, by simp [lookupBank, hk, hb]⟩

theorem keysOf_updatePos {ps : Positions} {k : String} (v : Bank)
    (h : k ∈ keysOf ps) : keysOf (updatePos ps k v) = keysOf ps := by
  induction ps with
  | nil => simp [keysOf] at h
  | cons p t ih =>
      obtain ⟨k', v'⟩ := p
      by_cases hk : k' = k
      · simp [updatePos, hk, keysOf]
      · have hmem : k ∈ keysOf t := by
          simp [keysOf] at h
          rcases h with h | h
          · exact absurd h.symm hk
          · simpa [keysOf] using h
        have := ih hmem
        simp only [updatePos, hk, if_false, keysOf, List.map_cons]
        simp only [keysOf] at this
        simp [this]

/-! ### Agreement of the two validity predicates -/

theorem mem_sans_iff {ps : Positions} {b : Bank} {n : String} (hn : n ≠ "Farmer") :
    (n ∈ (ps.filter fun p => p.2 = b ∧ p.1 ≠ "Farmer").map Prod.fst) ↔
      n ∈ getItemsAtBank ps b := by
  simp only [getItemsAtBank, List.mem_map, List.mem_filter, decide_eq_true_eq]
  constructor
  · rintro ⟨p, ⟨hp, hb, _⟩, rfl⟩
    exact ⟨p, ⟨hp, hb⟩, rfl⟩
  · rintro ⟨p, ⟨hp, hb⟩, rfl⟩
    exact ⟨p, ⟨hp, hb, hn⟩, rfl⟩

/-- C6: the live-play legality predicate `is_valid_state` and the search
pruning predicate `_is_valid_state` agree on every total positions mapping
that contains the farmer. -/
theorem c6_validity_predicates_agree (ps : Positions)
    (h : "Farmer" ∈ keysOf ps) :
    is_valid_state ps = is_valid_state_s ps := by
  have hfox := @mem_sans_iff ps (farmerBank ps).opposite "Fox" (by decide)
  have hch := @mem_sans_iff ps (farmerBank ps).opposite "Chicken" (by decide)
  have hgr := @mem_sans_iff ps (farmerBank ps).opposite "Grain" (by decide)
  simp only [is_valid_state, is_valid_state_s]
  rw [if_congr (and_congr hfox.symm hch.symm) rfl
      (if_congr (and_congr hch.symm hgr.symm) rfl rfl)]

/-- C6 witness: the two predicates agree on the initial configuration. -/
theorem c6_witness :
    ("Farmer" ∈ keysOf newGame.state.positions) ∧
      is_valid_state newGame.state.positions =
        is_valid_state_s newGame.state.positions :=
  ⟨by decide, c6_validity_predicates_agree newGame.state.positions (by decide)⟩

/-- C7: `_is_valid_state` returns `false` exactly when a forbidden pair
(Fox and Chicken, or Chicken and Grain) is fully present on the bank
opposite the farmer; in particular a configuration with fox and chicken
both opposite the farmer is illegal, and the same configuration with the
farmer moved onto their bank is legal. -/
theorem c7_legality_characterisation :
    (∀ ps : Positions,
        (is_valid_state_s ps = false ↔
          ("Fox" ∈ getItemsAtBank ps (farmerBank ps).opposite ∧
              "Chicken" ∈ getItemsAtBank ps (farmerBank ps).opposite) ∨
            ("Chicken" ∈ getItemsAtBank ps (farmerBank ps).opposite ∧
              "Grain" ∈ getItemsAtBank ps (farmerBank ps).opposite))) ∧
      is_valid_state_s
          [("Farmer", Bank.LEFT), ("Fox", Bank.RIGHT), ("Chicken", Bank.RIGHT),
            ("Grain", Bank.LEFT)] = false ∧
      is_valid_state_s
          [("Farmer", Bank.RIGHT), ("Fox", Bank.RIGHT), ("Chicken", Bank.RIGHT),
            ("Grain", Bank.LEFT)] = true := by
  refine ⟨fun ps => ?_, by decide, by decide⟩
  have hfox := @mem_sans_iff ps (farmerBank ps).opposite "Fox" (by decide)
  have hch := @mem_sans_iff ps (farmerBank ps).opposite "Chicken" (by decide)
  have hgr := @mem_sans_iff ps (farmerBank ps).opposite "Grain" (by decide)
  simp only [is_valid_state_s]
  rw [← hfox, ← hch, ← hgr]
  set items := (ps.filter fun p =>
    p.2 = (farmerBank ps).opposite ∧ p.1 ≠ "Farmer").map Prod.fst with hitems
  by_cases p1 : ("Fox" ∈ items) ∧ ("Chicken" ∈ items)
  · rw [if_pos p1]
    exact iff_of_true rfl (Or.inl p1)
  · rw [if_neg p1]
    by_cases p2 : ("Chicken" ∈ items) ∧ ("Grain" ∈ items)
    · rw [if_pos p2]
      exact iff_of_true rfl (Or.inr p2)
    · rw [if_neg p2]
      exact iff_of_false (by simp) (by tauto)
/-- C9: `solve` never mutates the live game state — after a call the
positions, the history and the move counter are unchanged (only the
solution cache may change). -/
theorem c9_solve_preserves_state (g : Game) :
    ((solve g).2).state = g.state ∧ ((solve g).2).move_count = g.move_count := by
  unfold solve
  by_cases hc : cacheTruthy g.cache = true
  · simp [hc]
  · simp only [hc, if_false]
    rcases hdfs : dfs g.state [] with _ | ⟨r, v⟩
    · simp [hdfs]
    · rcases r with _ | sol
      · simp [hdfs]
      · by_cases hs : sol.isEmpty <;> simp [hdfs, hs]
/-- C10: moving the farmer by name is the same operation as moving the
farmer alone: `make_move('Farmer')` succeeds and produces exactly the
result of `make_move(None)`. -/
theorem c10_farmer_by_name (g : Game)
    (h : "Farmer" ∈ keysOf g.state.positions) :
    makeMove g (some "Farmer") = makeMove g none := by
  obtain ⟨b, hb⟩ := lookup_of_mem h
  have hf : farmerBank g.state.positions = b := by
    simp [farmerBank, hb]
  unfold makeMove
  simp [truthy, h, hb, hf, updatePos_idem]
/-- C4 (amended): for every non-empty item name, `make_move` succeeds iff
the item is a known key co-located with the farmer, and every failed call
leaves the game (positions, history, move counter) unchanged. -/
theorem c4_make_move_success_iff (g : Game) (s : String) (hs : s ≠ "")
    (hf : "Farmer" ∈ keysOf g.state.positions) :
    ((makeMove g (some s)).1 = true ↔
        s ∈ keysOf g.state.positions ∧
          lookupBank g.state.positions s = some (farmerBank g.state.positions)) ∧
      ((makeMove g (some s)).1 = false → (makeMove g (some s)).2 = g) := by
  have ht : truthy (some s) = true := by simp [truthy, hs]
  unfold makeMove
  by_cases h1 : s ∈ keysOf g.state.positions
  · by_cases h2 : lookupBank g.state.positions s =
        some (farmerBank g.state.positions)
    · simp [ht, h1, h2]
    · simp [ht, h1, h2]
  · simp [ht, h1]
/-- C4 counterexample: `make_move("")` succeeds (Python truthiness treats
the empty string like `None`), although `""` is not a known item — so
success is not equivalent to "known and co-located" for every named item. -/
theorem c4_empty_string_counterexample :
    (makeMove newGame (some "")).1 = true ∧
      "" ∉ keysOf newGame.state.positions := by decide

/-- C4 witness: instantiating the amended statement at the fresh game and
the item `"Fox"`. -/
theorem c4_witness :
    (("Fox" : String) ≠ "" ∧ "Farmer" ∈ keysOf newGame.state.positions) ∧
      (((makeMove newGame (some "Fox")).1 = true ↔
          "Fox" ∈ keysOf newGame.state.positions ∧
            lookupBank newGame.state.positions "Fox" =
              some (farmerBank newGame.state.positions)) ∧
        ((makeMove newGame (some "Fox")).1 = false →
          (makeMove newGame (some "Fox")).2 = newGame)) :=
  ⟨⟨by decide, by decide⟩,
    c4_make_move_success_iff newGame "Fox" (by decide) (by decide)⟩

/-- C10 witness: the two farmer moves coincide on the fresh game. -/
theorem c10_witness :
    ("Farmer" ∈ keysOf newGame.state.positions) ∧
      makeMove newGame (some "Farmer") = makeMove newGame none :=
  ⟨by decide, c10_farmer_by_name newGame (by decide)⟩

/-- C1: the first `solve` on a fresh game returns the classic 7-move
solution: non-empty, of odd length 7 ≥ 7, and replaying it from the initial
configuration reaches the goal configuration. -/
theorem c1_first_solve_seven_moves :
    (let sol : List Move :=
      [("Chicken", Bank.RIGHT), ("Farmer", Bank.LEFT), ("Fox", Bank.RIGHT),
       ("Chicken", Bank.LEFT), ("Grain", Bank.RIGHT), ("Farmer", Bank.LEFT),
       ("Chicken", Bank.RIGHT)]
     (solve newGame).1 = some (some sol) ∧ sol ≠ [] ∧ sol.length = 7 ∧
       sol.length % 2 = 1 ∧ 7 ≤ sol.length ∧
       isGoalPos (applySeq newGame.state.positions sol) = true) := by decide

/-- C2: the cache stores the solution as a Python set, so the second
`solve` on the unchanged fresh game returns only the 5 distinct moves of
the 7-move solution — the two invocations disagree in length. -/
theorem c2_second_solve_loses_moves :
    ((solve newGame).1).map (Option.map List.length) = some (some 7) ∧
      ((solve (solve newGame).2).1).map (Option.map List.length) =
        some (some 5) := by decide
/-! ### Soundness of the search: returned sequences extend the history and
pass the validity check at every step -/

theorem nextState_eq (s : GameState) (fb : Bank) (c : Option String) :
    nextState s fb c =
      { positions := replayMove s.positions (c.getD "Farmer", fb.opposite)
        history := s.history ++ [(c.getD "Farmer", fb.opposite)] } := by
  cases c <;> simp [nextState, replayMove, updatePos_idem]

theorem tryMoves_sound
    (rec : GameState → List (Multiset Move) →
      Option (Option (List Move) × List (Multiset Move)))
    (hrec : ∀ t w w' sol, rec t w = some (some sol, w') →
      ∃ rest, sol = t.history ++ rest ∧ validReplay t.positions rest = true) :
    ∀ cs s fb v v' sol, tryMoves rec s fb cs v = some (some sol, v') →
      ∃ rest, sol = s.history ++ rest ∧ validReplay s.positions rest = true := by
  intro cs
  induction cs with
  | nil =>
      intro s fb v v' sol h
      simp [tryMoves] at h
  | cons c cs ih =>
      intro s fb v v' sol h
      rw [tryMoves] at h
      by_cases hval : is_valid_state_s (nextState s fb c).positions = true
      · rw [if_pos hval] at h
        rcases hrc : rec (nextState s fb c) v with _ | ⟨r₁, v₁⟩
        · rw [hrc] at h
          cases h
        · rw [hrc] at h
          rcases r₁ with _ | sol₁
          · exact ih s fb v₁ v' sol h
          · dsimp only at h
            by_cases he : sol₁.isEmpty = true
            · rw [if_pos he] at h
              exact ih s fb v₁ v' sol h
            · rw [if_neg he] at h
              obtain ⟨hsol, _⟩ : sol₁ = sol ∧ v₁ = v' := by
                simpa using h
              obtain ⟨rest₁, hr₁, hv₁⟩ := hrec _ _ _ _ hrc
              refine ⟨(c.getD "Farmer", fb.opposite) :: rest₁, ?_, ?_⟩
              · rw [← hsol, hr₁, nextState_eq]
                simp
              · rw [validReplay]
                have hpos : replayMove s.positions (c.getD "Farmer", fb.opposite) =
                    (nextState s fb c).positions := by
                  rw [nextState_eq]
                rw [hpos, Bool.and_eq_true]
                exact ⟨hval, hv₁⟩
      · rw [if_neg hval] at h
        exact ih s fb v v' sol h

theorem dfsAux_sound :
    ∀ fuel s v v' sol, dfsAux fuel s v = some (some sol, v') →
      ∃ rest, sol = s.history ++ rest ∧ validReplay s.positions rest = true := by
  intro fuel
  induction fuel with
  | zero =>
      intro s v v' sol h
      simp [dfsAux] at h
  | succ fuel ih =>
      intro s v v' sol h
      rw [dfsAux] at h
      by_cases hg : isGoalPos s.positions = true
      · rw [if_pos hg] at h
        obtain ⟨hsol, _⟩ : s.history = sol ∧ v = v' := by simpa using h
        exact ⟨[], by simp [hsol], rfl⟩
      · rw [if_neg hg] at h
        by_cases hv : stateKey s.positions ∈ v
        · rw [if_pos hv] at h
          simp at h
        · rw [if_neg hv] at h
          exact tryMoves_sound (dfsAux fuel)
            (fun t w w' so hw => ih t w w' so hw) _ s _ _ _ sol h
/-- C3 counterexample: after a first `solve`, the live configuration is
still the untouched (legal) initial one, but a second `solve` answers from
the cache with `list(set(solution))`.  In the modelled enumeration order of
that set — one possible order, since a Python set promises none — the first
returned move carries the fox across, leaving chicken and grain unattended:
the replay of the returned sequence fails the legality predicate.  So not
every sequence returned by `solve` from a legal configuration passes only
through legal configurations. -/
theorem c3_cached_solve_counterexample :
    (let g1 := (solve newGame).2
     is_valid_state_s g1.state.positions = true ∧
       ((solve g1).1).map (Option.map (validReplay g1.state.positions)) =
         some (some false)) := by decide

/-- C3 (amended): on an invocation where the solution cache is falsy (in
particular the first invocation), every sequence returned by `solve` from a
legal start configuration extends the recorded history by moves whose
successive application passes the legality predicate `_is_valid_state` at
every step; a cached invocation may instead return the deduplicated move
set, which need not replay legally (see the counterexample). -/
theorem c3_uncached_solve_moves_legal (g : Game)
    (hleg : is_valid_state_s g.state.positions = true)
    (hc : cacheTruthy g.cache = false) :
    ∀ sol, (solve g).1 = some (some sol) →
      ∃ rest, sol = g.state.history ++ rest ∧
        validReplay g.state.positions rest = true := by
  have hcf : ¬cacheTruthy g.cache = true := by simp [hc]
  intro sol hsol
  unfold solve at hsol
  rw [if_neg hcf] at hsol
  rcases hdfs : dfs g.state [] with _ | ⟨r, v⟩
  · rw [hdfs] at hsol
    cases hsol
  · rw [hdfs] at hsol
    rcases r with _ | sol₁
    · simp at hsol
    · obtain ⟨rest, hr, hvr⟩ := dfsAux_sound _ _ _ _ _ hdfs
      dsimp only at hsol
      by_cases he : sol₁.isEmpty = true
      · rw [if_pos he] at hsol
        simp at hsol
        exact ⟨rest, hsol ▸ hr, hvr⟩
      · rw [if_neg he] at hsol
        simp at hsol
        exact ⟨rest, hsol ▸ hr, hvr⟩

/-- C3 witness: the amended statement instantiated at the fresh game, whose
configuration is legal and whose cache is `None`. -/
theorem c3_witness :
    (is_valid_state_s newGame.state.positions = true ∧
        cacheTruthy newGame.cache = false) ∧
      ∀ sol, (solve newGame).1 = some (some sol) →
        ∃ rest, sol = newGame.state.history ++ rest ∧
          validReplay newGame.state.positions rest = true :=
  ⟨⟨by decide, by decide⟩,
    c3_uncached_solve_moves_legal newGame (by decide) (by decide)⟩

/-- C5 (amended): on an invocation where the solution cache is falsy (`None`
or empty — in particular the first invocation), the sequence returned by
`solve` extends the start configuration's recorded history, and on a
configuration already at the goal it is exactly the accumulated history.
(A later invocation with a populated cache returns the cached move set
instead, see the counterexample.) -/
theorem c5_solution_extends_history (g : Game)
    (hc : cacheTruthy g.cache = false) :
    (∀ sol, (solve g).1 = some (some sol) →
        ∃ rest, sol = g.state.history ++ rest) ∧
      (isGoalPos g.state.positions = true →
        (solve g).1 = some (some g.state.history)) := by
  have hcf : ¬cacheTruthy g.cache = true := by simp [hc]
  constructor
  · intro sol hsol
    unfold solve at hsol
    rw [if_neg hcf] at hsol
    rcases hdfs : dfs g.state [] with _ | ⟨r, v⟩
    · rw [hdfs] at hsol
      cases hsol
    · rw [hdfs] at hsol
      rcases r with _ | sol₁
      · simp at hsol
      · obtain ⟨rest, hr, _⟩ := dfsAux_sound _ _ _ _ _ hdfs
        dsimp only at hsol
        by_cases he : sol₁.isEmpty = true
        · rw [if_pos he] at hsol
          simp at hsol
          exact ⟨rest, hsol ▸ hr⟩
        · rw [if_neg he] at hsol
          simp at hsol
          exact ⟨rest, hsol ▸ hr⟩
  · intro hg
    have hdfs : dfs g.state [] = some (some g.state.history, []) := by
      rw [dfs, dfsAux, if_pos hg]
    unfold solve
    rw [if_neg hcf, hdfs]
    by_cases he : g.state.history.isEmpty = true
    · dsimp only
      rw [if_pos he]
    · dsimp only
      rw [if_neg he]

/-- C5 counterexample: play the full solution after a first `solve`, so the
configuration is at the goal with a 7-move history, and ask for a hint
again — the cached second `solve` does not return the accumulated history
(it returns the 5 distinct moves of the stale cached set). -/
theorem c5_cached_solve_counterexample :
    (let g8 : Game :=
      [some "Chicken", (none : Option String), some "Fox", some "Chicken",
        some "Grain", none, some "Chicken"].foldl
        (fun g c => (makeMove g c).2) (solve newGame).2
     isGoalPos g8.state.positions = true ∧
       g8.state.history.length = 7 ∧
       (solve g8).1 ≠ some (some g8.state.history)) := by decide

/-- C5 witness: a goal configuration with an empty cache, where `solve`
returns exactly the accumulated (empty) history. -/
theorem c5_witness :
    (cacheTruthy
        (Game.mk
          ⟨[("Farmer", Bank.RIGHT), ("Fox", Bank.RIGHT), ("Chicken", Bank.RIGHT),
            ("Grain", Bank.RIGHT)], []⟩ 0 none).cache = false) ∧
      ((∀ sol,
          (solve
              (Game.mk
                ⟨[("Farmer", Bank.RIGHT), ("Fox", Bank.RIGHT),
                  ("Chicken", Bank.RIGHT), ("Grain", Bank.RIGHT)], []⟩ 0
                none)).1 = some (some sol) →
          ∃ rest, sol =
            (Game.mk
              ⟨[("Farmer", Bank.RIGHT), ("Fox", Bank.RIGHT),
                ("Chicken", Bank.RIGHT), ("Grain", Bank.RIGHT)], []⟩ 0
              none).state.history ++ rest) ∧
        (isGoalPos
            (Game.mk
              ⟨[("Farmer", Bank.RIGHT), ("Fox", Bank.RIGHT),
                ("Chicken", Bank.RIGHT), ("Grain", Bank.RIGHT)], []⟩ 0
              none).state.positions = true →
          (solve
              (Game.mk
                ⟨[("Farmer", Bank.RIGHT), ("Fox", Bank.RIGHT),
                  ("Chicken", Bank.RIGHT), ("Grain", Bank.RIGHT)], []⟩ 0
                none)).1 =
            some (some
              (Game.mk
                ⟨[("Farmer", Bank.RIGHT), ("Fox", Bank.RIGHT),
                  ("Chicken", Bank.RIGHT), ("Grain", Bank.RIGHT)], []⟩ 0
                none).state.history))) :=
  ⟨by decide,
    c5_solution_extends_history
      (Game.mk
        ⟨[("Farmer", Bank.RIGHT), ("Fox", Bank.RIGHT), ("Chicken", Bank.RIGHT),
          ("Grain", Bank.RIGHT)], []⟩ 0 none) (by decide)⟩
/-! ### Termination of the search on the canonical state space -/

theorem filter_length_mono {α : Type} (l : List α) (p q : α → Bool)
    (h : ∀ a ∈ l, p a = true → q a = true) :
    (l.filter p).length ≤ (l.filter q).length := by
  induction l with
  | nil => simp
  | cons a t ih =>
      have iht := ih fun x hx hpx => h x (List.mem_cons_of_mem _ hx) hpx
      by_cases hp : p a = true
      · have hq := h a (List.mem_cons_self _ _) hp
        simp only [List.filter_cons, hp, hq, if_true, List.length_cons]
        exact Nat.succ_le_succ iht
      · have hmid : (t.filter q).length ≤ ((a :: t).filter q).length := by
          by_cases hq : q a = true <;> simp [List.filter_cons, hq]
        calc (List.filter p (a :: t)).length
            = (t.filter p).length := by simp [List.filter_cons, hp]
          _ ≤ (t.filter q).length := iht
          _ ≤ _ := hmid

theorem remaining_anti {v v' : List (Multiset Move)} (h : v ⊆ v') :
    remaining v' ≤ remaining v := by
  unfold remaining
  refine filter_length_mono _ _ _ fun k _ hk => ?_
  rw [decide_eq_true_eq] at hk ⊢
  exact fun hkv => hk (h hkv)

theorem remaining_le (v : List (Multiset Move)) :
    remaining v ≤ allKeys.length :=
  List.length_filter_le _ _

theorem filter_drop_lt {α : Type} [DecidableEq α] (v : List α) (k : α)
    (hv : k ∉ v) :
    ∀ l : List α, k ∈ l →
      (l.filter fun x => decide (x ∉ k :: v)).length <
        (l.filter fun x => decide (x ∉ v)).length := by
  intro l
  induction l with
  | nil => intro hk; cases hk
  | cons a t ih =>
      intro hk
      by_cases ha : a = k
      · subst ha
        have h1 : (decide (a ∉ a :: v)) = false := by simp
        have h2 : (decide (a ∉ v)) = true := by simpa using hv
        simp only [List.filter_cons, h1, h2, if_false, if_true, List.length_cons]
        have hmono : (t.filter fun x => decide (x ∉ a :: v)).length ≤
            (t.filter fun x => decide (x ∉ v)).length := by
          refine filter_length_mono _ _ _ fun x _ hx => ?_
          rw [decide_eq_true_eq] at hx ⊢
          exact fun hxv => hx (List.mem_cons_of_mem _ hxv)
        exact Nat.lt_succ_of_le hmono
      · have hkt : k ∈ t := by
          rcases List.mem_cons.mp hk with h | h
          · exact absurd h.symm ha
          · exact h
        by_cases hav : a ∈ v
        · have h1 : (decide (a ∉ k :: v)) = false := by
            simp [List.mem_cons, hav]
          have h2 : (decide (a ∉ v)) = false := by simpa using hav
          simp only [List.filter_cons, h1, h2, if_false]
          exact ih hkt
        · have h1 : (decide (a ∉ k :: v)) = true := by
            simp [List.mem_cons, ha, hav]
          have h2 : (decide (a ∉ v)) = true := by simpa using hav
          simp only [List.filter_cons, h1, h2, if_true, List.length_cons]
          exact Nat.succ_lt_succ (ih hkt)

theorem remaining_cons_lt {k : Multiset Move} {v : List (Multiset Move)}
    (hk : k ∈ allKeys) (hv : k ∉ v) :
    remaining (k :: v) < remaining v :=
  filter_drop_lt v k hv allKeys hk
theorem canon_shape {ps : Positions} (h : keysOf ps = canonKeys) :
    ∃ a b c d, ps =
      [("Farmer", a), ("Fox", b), ("Chicken", c), ("Grain", d)] := by
  rcases ps with _ | ⟨⟨k1, a⟩, _ | ⟨⟨k2, b⟩, _ | ⟨⟨k3, c⟩, _ | ⟨⟨k4, d⟩, _ | ⟨p5, t⟩⟩⟩⟩⟩ <;>
    simp only [keysOf, canonKeys, List.map_cons, List.map_nil,
      List.cons.injEq, List.map_eq_nil_iff] at h
  · cases h
  · exact absurd h.2 (by simp)
  · exact absurd h.2.2 (by simp)
  · exact absurd h.2.2.2 (by simp)
  · obtain ⟨h1, h2, h3, h4, _⟩ := h
    subst h1; subst h2; subst h3; subst h4
    exact ⟨a, b, c, d, rfl⟩
  · exact absurd h.2.2.2.2 (by simp)

theorem stateKey_mem_allKeys {ps : Positions} (h : keysOf ps = canonKeys) :
    stateKey ps ∈ allKeys := by
  obtain ⟨a, b, c, d, rfl⟩ := canon_shape h
  cases a <;> cases b <;> cases c <;> cases d <;> decide

theorem itemsWithFarmer_sub_keys {ps : Positions} {fb : Bank} {i : String}
    (h : i ∈ itemsWithFarmer ps fb) : i ∈ keysOf ps := by
  simp only [itemsWithFarmer, List.mem_map, List.mem_filter] at h
  obtain ⟨p, ⟨hp, _⟩, rfl⟩ := h
  simp only [keysOf, List.mem_map]
  exact ⟨p, hp, rfl⟩

theorem keysOf_nextState {s : GameState} {fb : Bank} {c : Option String}
    (hc : ∀ i, c = some i → i ∈ keysOf s.positions)
    (hf : "Farmer" ∈ keysOf s.positions) :
    keysOf (nextState s fb c).positions = keysOf s.positions := by
  cases c with
  | none => exact keysOf_updatePos _ hf
  | some item =>
      have hi : item ∈ keysOf s.positions := hc item rfl
      have h1 := @keysOf_updatePos s.positions "Farmer" fb.opposite hf
      have h2 : item ∈ keysOf (updatePos s.positions "Farmer" fb.opposite) := by
        rw [h1]; exact hi
      show keysOf (updatePos (updatePos s.positions "Farmer" fb.opposite)
        item fb.opposite) = keysOf s.positions
      rw [keysOf_updatePos _ h2, h1]
theorem tryMoves_visited_grows
    (rec : GameState → List (Multiset Move) →
      Option (Option (List Move) × List (Multiset Move)))
    (hrec : ∀ t w r w', rec t w = some (r, w') → w ⊆ w') :
    ∀ cs s fb v r v', tryMoves rec s fb cs v = some (r, v') → v ⊆ v' := by
  intro cs
  induction cs with
  | nil =>
      intro s fb v r v' h
      obtain ⟨_, hv⟩ : none = r ∧ v = v' := by simpa [tryMoves] using h
      rw [← hv]
      exact List.Subset.refl v
  | cons c cs ih =>
      intro s fb v r v' h
      rw [tryMoves] at h
      by_cases hval : is_valid_state_s (nextState s fb c).positions = true
      · rw [if_pos hval] at h
        rcases hrc : rec (nextState s fb c) v with _ | ⟨r₁, v₁⟩
        · rw [hrc] at h
          cases h
        · rw [hrc] at h
          have hv₁ := hrec _ _ _ _ hrc
          rcases r₁ with _ | sol₁
          · exact hv₁.trans (ih s fb v₁ r v' h)
          · dsimp only at h
            by_cases he : sol₁.isEmpty = true
            · rw [if_pos he] at h
              exact hv₁.trans (ih s fb v₁ r v' h)
            · rw [if_neg he] at h
              obtain ⟨_, hvv⟩ : some sol₁ = r ∧ v₁ = v' := by simpa using h
              rw [← hvv]
              exact hv₁
      · rw [if_neg hval] at h
        exact ih s fb v r v' h

theorem dfsAux_visited_grows :
    ∀ fuel s v r v', dfsAux fuel s v = some (r, v') → v ⊆ v' := by
  intro fuel
  induction fuel with
  | zero =>
      intro s v r v' h
      simp [dfsAux] at h
  | succ fuel ih =>
      intro s v r v' h
      rw [dfsAux] at h
      by_cases hg : isGoalPos s.positions = true
      · rw [if_pos hg] at h
        obtain ⟨_, hv⟩ : some s.history = r ∧ v = v' := by simpa using h
        rw [← hv]
        exact List.Subset.refl v
      · rw [if_neg hg] at h
        by_cases hv : stateKey s.positions ∈ v
        · rw [if_pos hv] at h
          obtain ⟨_, hveq⟩ : none = r ∧ v = v' := by simpa using h
          rw [← hveq]
          exact List.Subset.refl v
        · rw [if_neg hv] at h
          have := tryMoves_visited_grows (dfsAux fuel)
            (fun t w r' w' hw => ih t w r' w' hw) _ s _ _ _ _ h
          exact (List.subset_cons_self _ _).trans this
theorem tryMoves_complete (bound : Nat)
    (rec : GameState → List (Multiset Move) →
      Option (Option (List Move) × List (Multiset Move)))
    (hrec : ∀ t w, keysOf t.positions = canonKeys → remaining w < bound →
      (rec t w).isSome = true)
    (hmono : ∀ t w r w', rec t w = some (r, w') → w ⊆ w') :
    ∀ cs s fb v, keysOf s.positions = canonKeys →
      (∀ c ∈ cs, ∀ i, c = some i → i ∈ keysOf s.positions) →
      remaining v < bound → (tryMoves rec s fb cs v).isSome = true := by
  intro cs
  induction cs with
  | nil =>
      intro s fb v _ _ _
      simp [tryMoves]
  | cons c cs ih =>
      intro s fb v hk hcand hrem
      have hf : "Farmer" ∈ keysOf s.positions := by
        rw [hk]; decide
      have hkn : keysOf (nextState s fb c).positions = canonKeys := by
        rw [keysOf_nextState (hcand c (List.mem_cons_self _ _)) hf, hk]
      have hcand' : ∀ c' ∈ cs, ∀ i, c' = some i → i ∈ keysOf s.positions :=
        fun c' hc' => hcand c' (List.mem_cons_of_mem _ hc')
      rw [tryMoves]
      by_cases hval : is_valid_state_s (nextState s fb c).positions = true
      · rw [if_pos hval]
        obtain ⟨⟨r₁, v₁⟩, hrc⟩ :=
          Option.isSome_iff_exists.mp (hrec _ _ hkn hrem)
        rw [hrc]
        have hrem₁ : remaining v₁ < bound :=
          Nat.lt_of_le_of_lt (remaining_anti (hmono _ _ _ _ hrc)) hrem
        rcases r₁ with _ | sol₁
        · exact ih s fb v₁ hk hcand' hrem₁
        · dsimp only
          by_cases he : sol₁.isEmpty = true
          · rw [if_pos he]
            exact ih s fb v₁ hk hcand' hrem₁
          · rw [if_neg he]
            rfl
      · rw [if_neg hval]
        exact ih s fb v hk hcand' hrem

theorem dfsAux_complete :
    ∀ fuel s v, keysOf s.positions = canonKeys → remaining v < fuel →
      (dfsAux fuel s v).isSome = true := by
  intro fuel
  induction fuel with
  | zero =>
      intro s v _ hr
      exact absurd hr (Nat.not_lt_zero _)
  | succ fuel ih =>
      intro s v hk hr
      rw [dfsAux]
      by_cases hg : isGoalPos s.positions = true
      · rw [if_pos hg]
        rfl
      · rw [if_neg hg]
        by_cases hv : stateKey s.positions ∈ v
        · rw [if_pos hv]
          rfl
        · rw [if_neg hv]
          have hkey : stateKey s.positions ∈ allKeys := stateKey_mem_allKeys hk
          have hlt : remaining (stateKey s.positions :: v) < remaining v :=
            remaining_cons_lt hkey hv
          have hrem' : remaining (stateKey s.positions :: v) < fuel :=
            Nat.lt_of_lt_of_le hlt (Nat.lt_succ_iff.mp hr)
          refine tryMoves_complete fuel (dfsAux fuel)
            (fun t w htk hwr => ih t w htk hwr)
            (fun t w r w' hw => dfsAux_visited_grows fuel t w r w' hw)
            _ s _ _ hk ?_ hrem'
          intro c hc i hci
          rcases List.mem_cons.mp hc with h | h
          · rw [h] at hci
            cases hci
          · obtain ⟨j, hj, hcj⟩ := List.mem_map.mp h
            rw [← hcj] at hci
            cases hci
            exact itemsWithFarmer_sub_keys hj
/-- C8: on the canonical key set the search always terminates with a
result: the fuelled model of the unbounded Python recursion never exhausts
its fuel (the visited set grows within the 16-element state space), and
`solve` always returns. -/
theorem c8_search_terminates :
    (∀ s visited, keysOf s.positions = canonKeys →
        (dfsAux (allKeys.length + 1) s visited).isSome = true) ∧
      ∀ g : Game, keysOf g.state.positions = canonKeys →
        ((solve g).1).isSome = true := by
  have hdfs : ∀ s visited, keysOf s.positions = canonKeys →
      (dfsAux (allKeys.length + 1) s visited).isSome = true := by
    intro s visited hk
    exact dfsAux_complete _ s visited hk (Nat.lt_succ_of_le (remaining_le visited))
  refine ⟨hdfs, fun g hk => ?_⟩
  unfold solve
  by_cases hc : cacheTruthy g.cache = true
  · rw [if_pos hc]
    rfl
  · rw [if_neg hc]
    obtain ⟨⟨r, v⟩, hr⟩ := Option.isSome_iff_exists.mp (hdfs g.state [] hk)
    have hdfseq : dfs g.state [] = some (r, v) := hr
    rw [hdfseq]
    rcases r with _ | sol
    · rfl
    · dsimp only
      by_cases he : sol.isEmpty = true
      · rw [if_pos he]
        rfl
      · rw [if_neg he]
        rfl

/-- C8 witness: the fresh game has the canonical key set and its `solve`
returns a result. -/
theorem c8_witness :
    (keysOf newGame.state.positions = canonKeys) ∧
      ((solve newGame).1).isSome = true :=
  ⟨by decide, c8_search_terminates.2 newGame (by decide)⟩

end RiverCrossing
